import Mathlib

/-!
# Verification of the `OllamaScheduler` (src/core/llm/ollama_scheduler.py)

Shallow embedding of the dual-resource cooperative job scheduler:

* `OllamaJob` mirrors the Python dataclass (`priority`, `prompt`, `model`,
  `cpu_threads`, `gpu_mem_mb`).  The extra field `jid` models Python object
  identity: each submitted job is a distinct Python object owning its own
  `_future`, even when all dataclass fields coincide.
* The two priority queues (`asyncio.PriorityQueue` and the `heapq` list)
  are modelled as multisets (`List OllamaJob`): popping extracts a job of
  minimal `priority` (ties in the heap are unspecified in the source; the
  model deterministically takes the first listed minimal job).
* The per-job `asyncio.Future` is modelled by `FutureState`; attempting
  `set_result` on a non-pending future models `InvalidStateError` and is
  recorded in the `invalidState` flag of the state.
* `_schedule` runs without ever suspending (every `await` inside it is on a
  non-empty/unbounded queue), so it is modelled as one atomic function
  `schedule`; the spawned `_run_preprocess` / `_run_gpu` task bodies become
  the events `finishPre` / `finishGpu`, and caller-side task cancellation
  (which cancels the awaited future) becomes the event `cancel`.
-/

/-- Mirrors the Python dataclass `OllamaJob` (ordered by `priority` only;
all other dataclass fields have `compare=False`).  `jid` models object
identity. -/
structure OllamaJob where
  jid : Nat
  priority : Int
  prompt : String
  model : String
  cpu_threads : Int
  gpu_mem_mb : Int
deriving DecidableEq, Repr

/-- State of a job's `asyncio.Future` (`job._future`). -/
inductive FutureState where
  | pending
  | done (v : String)
  | cancelled
deriving DecidableEq, Repr

/-- The mutable state of an `OllamaScheduler` instance, plus the future of
every job ever submitted (keyed by job, `jid`-unique) and a flag recording
whether `Future.set_result` was ever attempted on a settled future
(`asyncio.InvalidStateError`). -/
structure SchedState where
  total_cpu_threads : Int
  total_gpu_mem : Int
  cpu_free : Int
  gpu_mem_free : Int
  cpuQueue : List OllamaJob
  cpuRunning : List OllamaJob
  gpuQueue : List OllamaJob
  gpuRunning : List OllamaJob
  max_gpu_concurrency : Nat
  completed : List OllamaJob
  futures : List (OllamaJob × FutureState)
  invalidState : Bool
deriving DecidableEq, Repr

/-- `OllamaScheduler.__init__`: full pools, every container empty. -/
def initScheduler (total_cpu_threads total_gpu_mem : Int) : SchedState :=
  { total_cpu_threads := total_cpu_threads
    total_gpu_mem := total_gpu_mem
    cpu_free := total_cpu_threads
    gpu_mem_free := total_gpu_mem
    cpuQueue := []
    cpuRunning := []
    gpuQueue := []
    gpuRunning := []
    max_gpu_concurrency := 0
    completed := []
    futures := []
    invalidState := false }

/-- Extract a job of minimal `priority` from the queue (the first listed one
among ties), together with the remaining queue.  Models one
`PriorityQueue.get` / `heapq.heappop`. -/
def popMin : List OllamaJob → Option (OllamaJob × List OllamaJob)
  | [] => none
  | j :: rest =>
    match popMin rest with
    | none => some (j, [])
    | some (m, rest') =>
      if j.priority ≤ m.priority then some (j, rest) else some (m, j :: rest')

theorem popMin_eq_none {q : List OllamaJob} : popMin q = none ↔ q = [] := by
  cases q with
  | nil => simp [popMin]
  | cons j rest =>
    simp only [popMin]
    constructor
    · intro h
      cases hr : popMin rest with
      | none => rw [hr] at h; simp at h
      | some p => rw [hr] at h; cases p with
        | mk m rest' => by_cases hp : j.priority ≤ m.priority <;> simp [hp] at h
    · intro h; exact absurd h (by simp)

theorem popMin_perm {q : List OllamaJob} {j : OllamaJob} {rest : List OllamaJob}
    (h : popMin q = some (j, rest)) : (j :: rest).Perm q := by
  induction q generalizing j rest with
  | nil => simp [popMin] at h
  | cons a as ih =>
    simp only [popMin] at h
    cases hr : popMin as with
    | none =>
      rw [hr] at h
      have : as = [] := popMin_eq_none.mp hr
      subst this
      simp at h
      obtain ⟨h1, h2⟩ := h
      subst h1; subst h2
      exact List.Perm.refl _
    | some p =>
      obtain ⟨m, rest'⟩ := p
      rw [hr] at h
      by_cases hp : a.priority ≤ m.priority
      · simp [hp] at h
        obtain ⟨h1, h2⟩ := h
        subst h1; subst h2
        exact List.Perm.refl _
      · simp [hp] at h
        obtain ⟨h1, h2⟩ := h
        subst h1; subst h2
        have hperm := ih hr
        exact (List.Perm.swap a _ rest').trans (hperm.cons a)

theorem popMin_min {q : List OllamaJob} {j : OllamaJob} {rest : List OllamaJob}
    (h : popMin q = some (j, rest)) : ∀ x ∈ q, j.priority ≤ x.priority := by
  induction q generalizing j rest with
  | nil => simp [popMin] at h
  | cons a as ih =>
    simp only [popMin] at h
    cases hr : popMin as with
    | none =>
      rw [hr] at h
      have : as = [] := popMin_eq_none.mp hr
      subst this
      simp at h
      obtain ⟨h1, _⟩ := h
      subst h1
      intro x hx
      simp at hx
      subst hx
      exact le_refl _
    | some p =>
      obtain ⟨m, rest'⟩ := p
      rw [hr] at h
      by_cases hp : a.priority ≤ m.priority
      · simp [hp] at h
        obtain ⟨h1, _⟩ := h
        subst h1
        intro x hx
        rcases List.mem_cons.mp hx with hx | hx
        · subst hx; exact le_refl _
        · exact le_trans hp (ih hr x hx)
      · simp [hp] at h
        obtain ⟨h1, h2⟩ := h
        subst h1
        intro x hx
        rcases List.mem_cons.mp hx with hx | hx
        · subst hx; exact le_of_not_le hp
        · exact ih hr x hx

theorem popMin_length {q : List OllamaJob} {j : OllamaJob} {rest : List OllamaJob}
    (h : popMin q = some (j, rest)) : rest.length + 1 = q.length := by
  have := (popMin_perm h).length_eq
  simpa using this

/-- The inner CPU loop of `_schedule`: repeatedly `get` the highest-priority
job; if `job.cpu_threads <= cpu_free`, deduct and start `_run_preprocess`
(collected into the granted list); otherwise `put` the job back and `break`
(the re-queued queue is the same multiset, modelled as the unchanged list).
Returns `(cpu_free, remaining queue, granted jobs in grant order)`. -/
def cpuPass (free : Int) (q : List OllamaJob) : Int × List OllamaJob × List OllamaJob :=
  match h : popMin q with
  | none => (free, q, [])
  | some (j, rest) =>
    if j.cpu_threads ≤ free then
      let r := cpuPass (free - j.cpu_threads) rest
      (r.1, r.2.1, j :: r.2.2)
    else (free, q, [])
termination_by q.length
decreasing_by
  have := popMin_length h
  omega

/-- The inner GPU loop of `_schedule`: while the heap's root fits in
`gpu_mem_free`, pop it, deduct its memory and start `_run_gpu`.
Returns `(gpu_mem_free, remaining queue, granted jobs in grant order)`. -/
def gpuPass (free : Int) (q : List OllamaJob) : Int × List OllamaJob × List OllamaJob :=
  match h : popMin q with
  | none => (free, q, [])
  | some (j, rest) =>
    if j.gpu_mem_mb ≤ free then
      let r := gpuPass (free - j.gpu_mem_mb) rest
      (r.1, r.2.1, j :: r.2.2)
    else (free, q, [])
termination_by q.length
decreasing_by
  have := popMin_length h
  omega

/-- Total CPU threads requested by a list of jobs. -/
def cpuSum (l : List OllamaJob) : Int := (l.map (·.cpu_threads)).sum

/-- Total GPU memory requested by a list of jobs. -/
def gpuSum (l : List OllamaJob) : Int := (l.map (·.gpu_mem_mb)).sum

theorem cpuSum_append (l₁ l₂ : List OllamaJob) :
    cpuSum (l₁ ++ l₂) = cpuSum l₁ + cpuSum l₂ := by
  simp [cpuSum]

theorem gpuSum_append (l₁ l₂ : List OllamaJob) :
    gpuSum (l₁ ++ l₂) = gpuSum l₁ + gpuSum l₂ := by
  simp [gpuSum]

theorem cpuSum_perm {l₁ l₂ : List OllamaJob} (h : l₁.Perm l₂) :
    cpuSum l₁ = cpuSum l₂ := by
  simp only [cpuSum]
  exact List.Perm.sum_eq (h.map _)

theorem gpuSum_perm {l₁ l₂ : List OllamaJob} (h : l₁.Perm l₂) :
    gpuSum l₁ = gpuSum l₂ := by
  simp only [gpuSum]
  exact List.Perm.sum_eq (h.map _)

/-- Unfold equation: empty queue, CPU pass grants nothing. -/
theorem cpuPass_none (free : Int) {q : List OllamaJob} (h : popMin q = none) :
    cpuPass free q = (free, q, []) := by
  rw [cpuPass]
  split
  · rfl
  · next j rest hpop => rw [h] at hpop; cases hpop

/-- Unfold equation: the head fits, so it is granted and the pass continues. -/
theorem cpuPass_grant (free : Int) {q : List OllamaJob} {j : OllamaJob}
    {rest : List OllamaJob} (h : popMin q = some (j, rest))
    (hfit : j.cpu_threads ≤ free) :
    cpuPass free q =
      ((cpuPass (free - j.cpu_threads) rest).1,
       (cpuPass (free - j.cpu_threads) rest).2.1,
       j :: (cpuPass (free - j.cpu_threads) rest).2.2) := by
  rw [cpuPass]
  split
  · next hpop => rw [h] at hpop; cases hpop
  · next j' rest' hpop =>
    rw [h] at hpop
    simp only [Option.some.injEq, Prod.mk.injEq] at hpop
    obtain ⟨h1, h2⟩ := hpop
    subst h1; subst h2
    simp [hfit]

/-- Unfold equation: the head does not fit, so it is re-queued and the CPU
stage stops for this cycle (head-of-line blocking). -/
theorem cpuPass_block (free : Int) {q : List OllamaJob} {j : OllamaJob}
    {rest : List OllamaJob} (h : popMin q = some (j, rest))
    (hfit : ¬ j.cpu_threads ≤ free) :
    cpuPass free q = (free, q, []) := by
  rw [cpuPass]
  split
  · next hpop => rfl
  · next j' rest' hpop =>
    rw [h] at hpop
    simp only [Option.some.injEq, Prod.mk.injEq] at hpop
    obtain ⟨h1, h2⟩ := hpop
    subst h1; subst h2
    simp [hfit]

/-- Unfold equation: empty queue, GPU pass grants nothing. -/
theorem gpuPass_none (free : Int) {q : List OllamaJob} (h : popMin q = none) :
    gpuPass free q = (free, q, []) := by
  rw [gpuPass]
  split
  · rfl
  · next j rest hpop => rw [h] at hpop; cases hpop

/-- Unfold equation: the heap root fits, so it is granted and the pass
continues. -/
theorem gpuPass_grant (free : Int) {q : List OllamaJob} {j : OllamaJob}
    {rest : List OllamaJob} (h : popMin q = some (j, rest))
    (hfit : j.gpu_mem_mb ≤ free) :
    gpuPass free q =
      ((gpuPass (free - j.gpu_mem_mb) rest).1,
       (gpuPass (free - j.gpu_mem_mb) rest).2.1,
       j :: (gpuPass (free - j.gpu_mem_mb) rest).2.2) := by
  rw [gpuPass]
  split
  · next hpop => rw [h] at hpop; cases hpop
  · next j' rest' hpop =>
    rw [h] at hpop
    simp only [Option.some.injEq, Prod.mk.injEq] at hpop
    obtain ⟨h1, h2⟩ := hpop
    subst h1; subst h2
    simp [hfit]

/-- Unfold equation: the heap root does not fit, so the GPU stage stops for
this cycle (head-of-line blocking). -/
theorem gpuPass_block (free : Int) {q : List OllamaJob} {j : OllamaJob}
    {rest : List OllamaJob} (h : popMin q = some (j, rest))
    (hfit : ¬ j.gpu_mem_mb ≤ free) :
    gpuPass free q = (free, q, []) := by
  rw [gpuPass]
  split
  · next hpop => rfl
  · next j' rest' hpop =>
    rw [h] at hpop
    simp only [Option.some.injEq, Prod.mk.injEq] at hpop
    obtain ⟨h1, h2⟩ := hpop
    subst h1; subst h2
    simp [hfit]

/-- The granted jobs together with the remaining queue are a permutation of
the original CPU queue: `cpuPass` neither loses nor invents jobs. -/
theorem cpuPass_perm (free : Int) (q : List OllamaJob) :
    ((cpuPass free q).2.2 ++ (cpuPass free q).2.1).Perm q := by
  induction free, q using cpuPass.induct with
  | case1 free q h => rw [cpuPass_none free h]; simp
  | case2 free q j rest hpop hfit ih =>
    rw [cpuPass_grant free hpop hfit]
    simp only [List.cons_append]
    exact (ih.cons j).trans (popMin_perm hpop)
  | case3 free q j rest hpop hfit =>
    rw [cpuPass_block free hpop hfit]
    simp

/-- The granted jobs together with the remaining queue are a permutation of
the original GPU queue. -/
theorem gpuPass_perm (free : Int) (q : List OllamaJob) :
    ((gpuPass free q).2.2 ++ (gpuPass free q).2.1).Perm q := by
  induction free, q using gpuPass.induct with
  | case1 free q h => rw [gpuPass_none free h]; simp
  | case2 free q j rest hpop hfit ih =>
    rw [gpuPass_grant free hpop hfit]
    simp only [List.cons_append]
    exact (ih.cons j).trans (popMin_perm hpop)
  | case3 free q j rest hpop hfit =>
    rw [gpuPass_block free hpop hfit]
    simp

/-- The CPU counter after a pass equals the old counter minus the threads of
every granted job: each grant deducts exactly its request. -/
theorem cpuPass_free (free : Int) (q : List OllamaJob) :
    (cpuPass free q).1 = free - cpuSum (cpuPass free q).2.2 := by
  induction free, q using cpuPass.induct with
  | case1 free q h => rw [cpuPass_none free h]; simp [cpuSum]
  | case2 free q j rest hpop hfit ih =>
    rw [cpuPass_grant free hpop hfit]
    simp only [cpuSum, List.map_cons, List.sum_cons] at ih ⊢
    omega
  | case3 free q j rest hpop hfit =>
    rw [cpuPass_block free hpop hfit]
    simp [cpuSum]

/-- The GPU counter after a pass equals the old counter minus the memory of
every granted job. -/
theorem gpuPass_free (free : Int) (q : List OllamaJob) :
    (gpuPass free q).1 = free - gpuSum (gpuPass free q).2.2 := by
  induction free, q using gpuPass.induct with
  | case1 free q h => rw [gpuPass_none free h]; simp [gpuSum]
  | case2 free q j rest hpop hfit ih =>
    rw [gpuPass_grant free hpop hfit]
    simp only [gpuSum, List.map_cons, List.sum_cons] at ih ⊢
    omega
  | case3 free q j rest hpop hfit =>
    rw [gpuPass_block free hpop hfit]
    simp [gpuSum]

/-- A pass never drives the CPU counter negative: every grant is guarded by
`job.cpu_threads <= cpu_free`. -/
theorem cpuPass_free_nonneg (free : Int) (q : List OllamaJob) (hfree : 0 ≤ free) :
    0 ≤ (cpuPass free q).1 := by
  induction free, q using cpuPass.induct with
  | case1 free q h => rw [cpuPass_none free h]; exact hfree
  | case2 free q j rest hpop hfit ih =>
    rw [cpuPass_grant free hpop hfit]
    exact ih (by omega)
  | case3 free q j rest hpop hfit =>
    rw [cpuPass_block free hpop hfit]
    exact hfree

/-- A pass never drives the GPU counter negative. -/
theorem gpuPass_free_nonneg (free : Int) (q : List OllamaJob) (hfree : 0 ≤ free) :
    0 ≤ (gpuPass free q).1 := by
  induction free, q using gpuPass.induct with
  | case1 free q h => rw [gpuPass_none free h]; exact hfree
  | case2 free q j rest hpop hfit ih =>
    rw [gpuPass_grant free hpop hfit]
    exact ih (by omega)
  | case3 free q j rest hpop hfit =>
    rw [gpuPass_block free hpop hfit]
    exact hfree

theorem cpuPass_length (free : Int) (q : List OllamaJob) :
    (cpuPass free q).2.2.length + (cpuPass free q).2.1.length = q.length := by
  have := (cpuPass_perm free q).length_eq
  simpa using this

theorem gpuPass_length (free : Int) (q : List OllamaJob) :
    (gpuPass free q).2.2.length + (gpuPass free q).2.1.length = q.length := by
  have := (gpuPass_perm free q).length_eq
  simpa using this

theorem cpuPass_mem {free : Int} {q : List OllamaJob} {j : OllamaJob}
    (h : j ∈ (cpuPass free q).2.2 ∨ j ∈ (cpuPass free q).2.1) : j ∈ q :=
  (cpuPass_perm free q).mem_iff.mp (List.mem_append.mpr h)

theorem gpuPass_mem {free : Int} {q : List OllamaJob} {j : OllamaJob}
    (h : j ∈ (gpuPass free q).2.2 ∨ j ∈ (gpuPass free q).2.1) : j ∈ q :=
  (gpuPass_perm free q).mem_iff.mp (List.mem_append.mpr h)

/-- One iteration of the outer `while made_progress` loop of `_schedule`:
run the CPU inner loop, then the GPU inner loop, starting the granted jobs
(granted jobs enter the corresponding running multiset; each `_run_gpu`
task's first action appends the job to `_gpu_running` and updates
`max_gpu_concurrency`). -/
def applyGrants (s : SchedState) : SchedState :=
  { s with
    cpu_free := (cpuPass s.cpu_free s.cpuQueue).1
    cpuQueue := (cpuPass s.cpu_free s.cpuQueue).2.1
    cpuRunning := (cpuPass s.cpu_free s.cpuQueue).2.2 ++ s.cpuRunning
    gpu_mem_free := (gpuPass s.gpu_mem_free s.gpuQueue).1
    gpuQueue := (gpuPass s.gpu_mem_free s.gpuQueue).2.1
    gpuRunning := (gpuPass s.gpu_mem_free s.gpuQueue).2.2 ++ s.gpuRunning
    max_gpu_concurrency :=
      max s.max_gpu_concurrency
        ((gpuPass s.gpu_mem_free s.gpuQueue).2.2 ++ s.gpuRunning).length }

/-- Each progressing iteration of the outer loop strictly shrinks the
combined queues. -/
theorem applyGrants_measure {s : SchedState}
    (h : ¬((cpuPass s.cpu_free s.cpuQueue).2.2 = [] ∧
           (gpuPass s.gpu_mem_free s.gpuQueue).2.2 = [])) :
    (applyGrants s).cpuQueue.length + (applyGrants s).gpuQueue.length <
      s.cpuQueue.length + s.gpuQueue.length := by
  simp only [applyGrants]
  have hc := cpuPass_length s.cpu_free s.cpuQueue
  have hg := gpuPass_length s.gpu_mem_free s.gpuQueue
  rcases not_and_or.mp h with h1 | h1
  · have := List.length_pos.mpr h1
    omega
  · have := List.length_pos.mpr h1
    omega

/-- `OllamaScheduler._schedule`: iterate the two inner loops until an
iteration makes no progress (`made_progress` stays false exactly when
neither stage granted a job). -/
def schedule (s : SchedState) : SchedState :=
  if h : (cpuPass s.cpu_free s.cpuQueue).2.2 = [] ∧
         (gpuPass s.gpu_mem_free s.gpuQueue).2.2 = [] then s
  else schedule (applyGrants s)
termination_by s.cpuQueue.length + s.gpuQueue.length
decreasing_by
  exact applyGrants_measure h

/-- Any property preserved by one outer iteration is preserved by the whole
`_schedule` loop. -/
theorem schedule_pres (P : SchedState → Prop)
    (hP : ∀ t, P t → P (applyGrants t)) :
    ∀ s, P s → P (schedule s) := by
  intro s
  induction s using schedule.induct with
  | case1 s h =>
    intro hp
    rw [schedule, dif_pos h]
    exact hp
  | case2 s h ih =>
    intro hp
    rw [schedule, dif_neg h]
    exact ih (hP s hp)

/-- `_schedule` only moves jobs from the queues into the running multisets:
totals, completion log, futures and the error flag are untouched. -/
theorem schedule_fields (s : SchedState) :
    (schedule s).completed = s.completed ∧
    (schedule s).futures = s.futures ∧
    (schedule s).total_cpu_threads = s.total_cpu_threads ∧
    (schedule s).total_gpu_mem = s.total_gpu_mem ∧
    (schedule s).invalidState = s.invalidState := by
  exact schedule_pres
    (fun t => t.completed = s.completed ∧ t.futures = s.futures ∧
      t.total_cpu_threads = s.total_cpu_threads ∧
      t.total_gpu_mem = s.total_gpu_mem ∧ t.invalidState = s.invalidState)
    (fun t ht => by simpa [applyGrants] using ht)
    s ⟨rfl, rfl, rfl, rfl, rfl⟩

/-- The outer loop of `_schedule` with explicit fuel: `none` means the fuel
ran out before the loop exited. -/
def scheduleFuel : Nat → SchedState → Option SchedState
  | 0, _ => none
  | n + 1, s =>
    if (cpuPass s.cpu_free s.cpuQueue).2.2 = [] ∧
       (gpuPass s.gpu_mem_free s.gpuQueue).2.2 = [] then some s
    else scheduleFuel n (applyGrants s)

/-- Look up the state of `job._future` (object identity via `jid`). -/
def futLookup (s : SchedState) (j : OllamaJob) : Option FutureState :=
  (s.futures.find? (fun p => p.1.jid = j.jid)).map (·.2)

/-- Settle (or re-settle) `job._future`. -/
def setFuture (s : SchedState) (j : OllamaJob) (fs : FutureState) : SchedState :=
  { s with futures := s.futures.map (fun p => if p.1.jid = j.jid then (j, fs) else p) }

/-- The atomic events of the scheduler:

* `submit j` — `OllamaScheduler.submit`: create `job._future`, enqueue into
  the CPU priority queue, run `_schedule` under the lock (the caller then
  awaits the future).
* `finishPre j` — body of the task `_run_preprocess(j)`: the simulated CPU
  work finishes, `cpu_free` is released, the job moves to the GPU heap and
  `_schedule` runs under the lock.
* `finishGpu j` — body of the task `_run_gpu(j)`: the simulated inference
  finishes, GPU memory is released, the job leaves the running multiset and
  is appended to `completed`; `set_result(job.prompt)` settles the future —
  unless the future is already settled (e.g. cancelled by the caller), in
  which case `asyncio.InvalidStateError` is raised and the trailing
  `_schedule` call never runs.
* `cancel j` — the submitting caller's task is cancelled while awaiting
  `job._future`: asyncio cancels the awaited future.  Nothing else in the
  scheduler reacts: the job stays in whatever queue or running set it
  occupies. -/
inductive SchedEvent where
  | submit (j : OllamaJob)
  | finishPre (j : OllamaJob)
  | finishGpu (j : OllamaJob)
  | cancel (j : OllamaJob)
deriving DecidableEq, Repr

/-- One event of the scheduler.  `none` marks an event that cannot occur at
this state (its enabling condition fails), so that `runTrace` only follows
event sequences the Python system can produce: a job object is submitted
once (fresh `jid`), `_run_preprocess(j)` / `_run_gpu(j)` only finish for a
job whose phase is running, and a future can only be cancelled while the
caller is still waiting on it. -/
def step (s : SchedState) : SchedEvent → Option SchedState
  | .submit j =>
    if s.futures.all (fun p => p.1.jid ≠ j.jid) then
      some (schedule { s with cpuQueue := s.cpuQueue ++ [j],
                              futures := s.futures ++ [(j, .pending)] })
    else none
  | .finishPre j =>
    if j ∈ s.cpuRunning then
      some (schedule { s with cpu_free := s.cpu_free + j.cpu_threads,
                              cpuRunning := s.cpuRunning.erase j,
                              gpuQueue := s.gpuQueue ++ [j] })
    else none
  | .finishGpu j =>
    if j ∈ s.gpuRunning then
      let s' := { s with gpu_mem_free := s.gpu_mem_free + j.gpu_mem_mb,
                         gpuRunning := s.gpuRunning.erase j,
                         completed := s.completed ++ [j] }
      if futLookup s' j = some .pending then
        some (schedule (setFuture s' j (.done j.prompt)))
      else
        some { s' with invalidState := true }
    else none
  | .cancel j =>
    if futLookup s j = some .pending then
      some (setFuture s j .cancelled)
    else none

/-- Run a sequence of events from a state; `none` if some event is not
enabled where it occurs. -/
def runTrace : SchedState → List SchedEvent → Option SchedState
  | s, [] => some s
  | s, e :: tr =>
    match step s e with
    | none => none
    | some s' => runTrace s' tr

/-- A state property preserved by every step (of an event satisfying `Q`)
holds at the end of every valid trace (of events satisfying `Q`). -/
theorem runTrace_pres (P : SchedState → Prop) (Q : SchedEvent → Prop)
    (hP : ∀ s e s', Q e → P s → step s e = some s' → P s') :
    ∀ tr s s', (∀ e ∈ tr, Q e) → P s → runTrace s tr = some s' → P s' := by
  intro tr
  induction tr with
  | nil =>
    intro s s' _ hp h
    simp only [runTrace, Option.some.injEq] at h
    exact h ▸ hp
  | cons e tr ih =>
    intro s s' hq hp h
    simp only [runTrace] at h
    cases hstep : step s e with
    | none => rw [hstep] at h; cases h
    | some s₁ =>
      rw [hstep] at h
      exact ih s₁ s' (fun e' he' => hq e' (List.mem_cons_of_mem e he'))
        (hP s e s₁ (hq e (List.mem_cons_self e tr)) hp hstep) h

theorem cpuSum_erase {l : List OllamaJob} {j : OllamaJob} (h : j ∈ l) :
    cpuSum l = j.cpu_threads + cpuSum (l.erase j) := by
  have := cpuSum_perm (List.perm_cons_erase h)
  simpa [cpuSum] using this

theorem gpuSum_erase {l : List OllamaJob} {j : OllamaJob} (h : j ∈ l) :
    gpuSum l = j.gpu_mem_mb + gpuSum (l.erase j) := by
  have := gpuSum_perm (List.perm_cons_erase h)
  simpa [gpuSum] using this

/-- Resource accounting: the free counter plus everything currently held by
running jobs equals the configured total, for both resources. -/
def conserved (s : SchedState) : Prop :=
  s.cpu_free + cpuSum s.cpuRunning = s.total_cpu_threads ∧
  s.gpu_mem_free + gpuSum s.gpuRunning = s.total_gpu_mem

theorem applyGrants_conserved {t : SchedState} (h : conserved t) :
    conserved (applyGrants t) := by
  obtain ⟨h1, h2⟩ := h
  constructor
  · simp only [applyGrants, cpuSum_append]
    have := cpuPass_free t.cpu_free t.cpuQueue
    omega
  · simp only [applyGrants, gpuSum_append]
    have := gpuPass_free t.gpu_mem_free t.gpuQueue
    omega

theorem schedule_conserved {s : SchedState} (h : conserved s) :
    conserved (schedule s) :=
  schedule_pres conserved (fun _ ht => applyGrants_conserved ht) s h

/-- Every step keeps the resource-accounting equation and the configured
totals: each acquired amount is released exactly once. -/
theorem step_conserved {s : SchedState} {e : SchedEvent} {s' : SchedState}
    (h : conserved s) (hstep : step s e = some s') :
    conserved s' ∧ s'.total_cpu_threads = s.total_cpu_threads ∧
      s'.total_gpu_mem = s.total_gpu_mem := by
  cases e with
  | submit j =>
    simp only [step] at hstep
    split at hstep
    · simp only [Option.some.injEq] at hstep
      subst hstep
      refine ⟨schedule_conserved h, ?_, ?_⟩ <;>
        simp [(schedule_fields _).2.2.1, (schedule_fields _).2.2.2.1]
    · cases hstep
  | finishPre j =>
    simp only [step] at hstep
    split at hstep
    · next hmem =>
      simp only [Option.some.injEq] at hstep
      subst hstep
      have hc : conserved { s with cpu_free := s.cpu_free + j.cpu_threads,
                                   cpuRunning := s.cpuRunning.erase j,
                                   gpuQueue := s.gpuQueue ++ [j] } := by
        constructor
        · have := cpuSum_erase hmem
          have h1 := h.1
          simp only at h1 ⊢
          omega
        · exact h.2
      refine ⟨schedule_conserved hc, ?_, ?_⟩ <;>
        simp [(schedule_fields _).2.2.1, (schedule_fields _).2.2.2.1]
    · cases hstep
  | finishGpu j =>
    simp only [step] at hstep
    split at hstep
    · next hmem =>
      have hc : conserved { s with gpu_mem_free := s.gpu_mem_free + j.gpu_mem_mb,
                                   gpuRunning := s.gpuRunning.erase j,
                                   completed := s.completed ++ [j] } := by
        constructor
        · exact h.1
        · have := gpuSum_erase hmem
          have h2 := h.2
          simp only at h2 ⊢
          omega
      split at hstep
      · simp only [Option.some.injEq] at hstep
        subst hstep
        refine ⟨schedule_conserved hc, ?_, ?_⟩ <;>
          simp [(schedule_fields _).2.2.1, (schedule_fields _).2.2.2.1, setFuture]
      · simp only [Option.some.injEq] at hstep
        subst hstep
        exact ⟨hc, rfl, rfl⟩
    · cases hstep
  | cancel j =>
    simp only [step] at hstep
    split at hstep
    · simp only [Option.some.injEq] at hstep
      subst hstep
      exact ⟨h, rfl, rfl⟩
    · cases hstep

/-- C2 — resource conservation: after any valid sequence of submissions,
phase completions and cancellations that leaves no job queued or running,
both free counters are back at the configured totals. -/
theorem resource_conservation (ct gm : Int) (tr : List SchedEvent)
    (s : SchedState) (hrun : runTrace (initScheduler ct gm) tr = some s)
    (hcq : s.cpuQueue = []) (hcr : s.cpuRunning = [])
    (hgq : s.gpuQueue = []) (hgr : s.gpuRunning = []) :
    s.cpu_free = ct ∧ s.gpu_mem_free = gm := by
  have hinv :
      conserved s ∧ s.total_cpu_threads = ct ∧ s.total_gpu_mem = gm := by
    refine runTrace_pres
      (fun t => conserved t ∧ t.total_cpu_threads = ct ∧ t.total_gpu_mem = gm)
      (fun _ => True) ?_ tr _ s (fun _ _ => trivial) ?_ hrun
    · intro t e t' _ ht hstep
      obtain ⟨hc, hty, htg⟩ := ht
      obtain ⟨hc', hty', htg'⟩ := step_conserved hc hstep
      exact ⟨hc', hty'.trans hty, htg'.trans htg⟩
    · exact ⟨⟨by simp [initScheduler, cpuSum], by simp [initScheduler, gpuSum]⟩,
        rfl, rfl⟩
  obtain ⟨⟨h1, h2⟩, hty, htg⟩ := hinv
  rw [hcr] at h1
  rw [hgr] at h2
  simp [cpuSum, gpuSum] at h1 h2
  omega

/-- A job request with non-negative resource amounts. -/
def nonnegJob (j : OllamaJob) : Prop := 0 ≤ j.cpu_threads ∧ 0 ≤ j.gpu_mem_mb

instance (j : OllamaJob) : Decidable (nonnegJob j) := by
  unfold nonnegJob; infer_instance

/-- Traces whose submissions all carry non-negative resource amounts. -/
def eventNonneg : SchedEvent → Prop
  | .submit j => nonnegJob j
  | _ => True

instance (e : SchedEvent) : Decidable (eventNonneg e) := by
  cases e <;> { unfold eventNonneg; infer_instance }

/-- Every job anywhere in the pipeline has non-negative amounts. -/
def jobsNonneg (s : SchedState) : Prop :=
  (∀ j ∈ s.cpuQueue, nonnegJob j) ∧ (∀ j ∈ s.cpuRunning, nonnegJob j) ∧
  (∀ j ∈ s.gpuQueue, nonnegJob j) ∧ (∀ j ∈ s.gpuRunning, nonnegJob j)

/-- Both free counters are non-negative. -/
def freeNonneg (s : SchedState) : Prop := 0 ≤ s.cpu_free ∧ 0 ≤ s.gpu_mem_free

theorem applyGrants_nonneg {t : SchedState} (h : jobsNonneg t ∧ freeNonneg t) :
    jobsNonneg (applyGrants t) ∧ freeNonneg (applyGrants t) := by
  obtain ⟨⟨hcq, hcr, hgq, hgr⟩, hf1, hf2⟩ := h
  refine ⟨⟨?_, ?_, ?_, ?_⟩, ?_, ?_⟩
  · intro j hj
    simp only [applyGrants] at hj
    exact hcq j (cpuPass_mem (Or.inr hj))
  · intro j hj
    simp only [applyGrants] at hj
    rcases List.mem_append.mp hj with hj | hj
    · exact hcq j (cpuPass_mem (Or.inl hj))
    · exact hcr j hj
  · intro j hj
    simp only [applyGrants] at hj
    exact hgq j (gpuPass_mem (Or.inr hj))
  · intro j hj
    simp only [applyGrants] at hj
    rcases List.mem_append.mp hj with hj | hj
    · exact hgq j (gpuPass_mem (Or.inl hj))
    · exact hgr j hj
  · simp only [applyGrants, freeNonneg]
    exact cpuPass_free_nonneg _ _ hf1
  · simp only [applyGrants, freeNonneg]
    exact gpuPass_free_nonneg _ _ hf2

theorem schedule_nonneg {s : SchedState} (h : jobsNonneg s ∧ freeNonneg s) :
    jobsNonneg (schedule s) ∧ freeNonneg (schedule s) :=
  schedule_pres (fun t => jobsNonneg t ∧ freeNonneg t)
    (fun _ ht => applyGrants_nonneg ht) s h

/-- A step of an event with non-negative amounts keeps all pipeline jobs and
both free counters non-negative: a grant only happens when the request fits
the free counter. -/
theorem step_nonneg {s : SchedState} {e : SchedEvent} {s' : SchedState}
    (hq : eventNonneg e) (h : jobsNonneg s ∧ freeNonneg s)
    (hstep : step s e = some s') : jobsNonneg s' ∧ freeNonneg s' := by
  obtain ⟨⟨hcq, hcr, hgq, hgr⟩, hf1, hf2⟩ := h
  cases e with
  | submit j =>
    simp only [step] at hstep
    split at hstep
    · simp only [Option.some.injEq] at hstep
      subst hstep
      refine schedule_nonneg ⟨⟨?_, hcr, hgq, hgr⟩, hf1, hf2⟩
      intro x hx
      rcases List.mem_append.mp hx with hx | hx
      · exact hcq x hx
      · simp at hx
        exact hx ▸ hq
    · cases hstep
  | finishPre j =>
    simp only [step] at hstep
    split at hstep
    · next hmem =>
      simp only [Option.some.injEq] at hstep
      subst hstep
      refine schedule_nonneg ⟨⟨hcq, ?_, ?_, hgr⟩, ?_, hf2⟩
      · intro x hx
        exact hcr x (List.mem_of_mem_erase hx)
      · intro x hx
        rcases List.mem_append.mp hx with hx | hx
        · exact hgq x hx
        · simp at hx
          exact hx ▸ hcr j hmem
      · have := (hcr j hmem).1
        simp only
        omega
    · cases hstep
  | finishGpu j =>
    simp only [step] at hstep
    split at hstep
    · next hmem =>
      have hok : jobsNonneg
            { s with gpu_mem_free := s.gpu_mem_free + j.gpu_mem_mb,
                     gpuRunning := s.gpuRunning.erase j,
                     completed := s.completed ++ [j] } ∧
          freeNonneg
            { s with gpu_mem_free := s.gpu_mem_free + j.gpu_mem_mb,
                     gpuRunning := s.gpuRunning.erase j,
                     completed := s.completed ++ [j] } := by
        refine ⟨⟨hcq, hcr, hgq, ?_⟩, hf1, ?_⟩
        · intro x hx
          exact hgr x (List.mem_of_mem_erase hx)
        · have := (hgr j hmem).2
          simp only [freeNonneg]
          omega
      split at hstep
      · simp only [Option.some.injEq] at hstep
        subst hstep
        exact schedule_nonneg hok
      · simp only [Option.some.injEq] at hstep
        subst hstep
        exact hok
    · cases hstep
  | cancel j =>
    simp only [step] at hstep
    split at hstep
    · simp only [Option.some.injEq] at hstep
      subst hstep
      exact ⟨⟨hcq, hcr, hgq, hgr⟩, hf1, hf2⟩
    · cases hstep

/-- C3 — no over-admission: at every reachable state of a trace whose
submissions have non-negative amounts, the CPU threads held by jobs in
their CPU phase sum to at most the total, the GPU memory held by jobs in
their GPU phase sums to at most the total, and the free counters never go
negative. -/
theorem no_over_admission (ct gm : Int) (hct : 0 ≤ ct) (hgm : 0 ≤ gm)
    (tr : List SchedEvent) (hnn : ∀ e ∈ tr, eventNonneg e) (s : SchedState)
    (hrun : runTrace (initScheduler ct gm) tr = some s) :
    cpuSum s.cpuRunning ≤ ct ∧ gpuSum s.gpuRunning ≤ gm ∧
      0 ≤ s.cpu_free ∧ 0 ≤ s.gpu_mem_free := by
  have hinv :
      (conserved s ∧ s.total_cpu_threads = ct ∧ s.total_gpu_mem = gm) ∧
        jobsNonneg s ∧ freeNonneg s := by
    refine runTrace_pres
      (fun t => (conserved t ∧ t.total_cpu_threads = ct ∧
                  t.total_gpu_mem = gm) ∧ jobsNonneg t ∧ freeNonneg t)
      eventNonneg ?_ tr _ s hnn ?_ hrun
    · intro t e t' hqe ht hstep
      obtain ⟨⟨hc, hty, htg⟩, hn⟩ := ht
      obtain ⟨hc', hty', htg'⟩ := step_conserved hc hstep
      exact ⟨⟨hc', hty'.trans hty, htg'.trans htg⟩, step_nonneg hqe hn hstep⟩
    · refine ⟨⟨⟨by simp [initScheduler, cpuSum], by simp [initScheduler, gpuSum]⟩,
        rfl, rfl⟩, ⟨by simp [initScheduler], by simp [initScheduler],
        by simp [initScheduler], by simp [initScheduler]⟩, ?_⟩
      exact ⟨hct, hgm⟩
  obtain ⟨⟨⟨h1, h2⟩, hty, htg⟩, _, hfc, hfg⟩ := hinv
  refine ⟨by omega, by omega, hfc, hfg⟩

/-- No jump-ahead on the CPU stage: every job granted by a pass has a
priority number no larger than that of every job left waiting. -/
theorem cpuPass_order (free : Int) (q : List OllamaJob) :
    ∀ g ∈ (cpuPass free q).2.2, ∀ r ∈ (cpuPass free q).2.1,
      g.priority ≤ r.priority := by
  induction free, q using cpuPass.induct with
  | case1 free q h =>
    rw [cpuPass_none free h]
    simp
  | case2 free q j rest hpop hfit ih =>
    rw [cpuPass_grant free hpop hfit]
    intro g hg r hr
    rcases List.mem_cons.mp hg with hg | hg
    · have hr' : r ∈ rest := cpuPass_mem (Or.inr hr)
      rw [hg]
      exact popMin_min hpop r
        ((popMin_perm hpop).mem_iff.mp (List.mem_cons_of_mem j hr'))
    · exact ih g hg r hr
  | case3 free q j rest hpop hfit =>
    rw [cpuPass_block free hpop hfit]
    simp

/-- No jump-ahead on the GPU stage. -/
theorem gpuPass_order (free : Int) (q : List OllamaJob) :
    ∀ g ∈ (gpuPass free q).2.2, ∀ r ∈ (gpuPass free q).2.1,
      g.priority ≤ r.priority := by
  induction free, q using gpuPass.induct with
  | case1 free q h =>
    rw [gpuPass_none free h]
    simp
  | case2 free q j rest hpop hfit ih =>
    rw [gpuPass_grant free hpop hfit]
    intro g hg r hr
    rcases List.mem_cons.mp hg with hg | hg
    · have hr' : r ∈ rest := gpuPass_mem (Or.inr hr)
      rw [hg]
      exact popMin_min hpop r
        ((popMin_perm hpop).mem_iff.mp (List.mem_cons_of_mem j hr'))
    · exact ih g hg r hr
  | case3 free q j rest hpop hfit =>
    rw [gpuPass_block free hpop hfit]
    simp

/-- Jobs are granted in non-decreasing priority-number order within a CPU
pass. -/
theorem cpuPass_granted_sorted (free : Int) (q : List OllamaJob) :
    (cpuPass free q).2.2.Pairwise (fun a b => a.priority ≤ b.priority) := by
  induction free, q using cpuPass.induct with
  | case1 free q h =>
    rw [cpuPass_none free h]
    simp
  | case2 free q j rest hpop hfit ih =>
    rw [cpuPass_grant free hpop hfit]
    refine List.Pairwise.cons ?_ ih
    intro b hb
    have hb' : b ∈ rest := cpuPass_mem (Or.inl hb)
    exact popMin_min hpop b
      ((popMin_perm hpop).mem_iff.mp (List.mem_cons_of_mem j hb'))
  | case3 free q j rest hpop hfit =>
    rw [cpuPass_block free hpop hfit]
    simp

/-- Jobs are granted in non-decreasing priority-number order within a GPU
pass. -/
theorem gpuPass_granted_sorted (free : Int) (q : List OllamaJob) :
    (gpuPass free q).2.2.Pairwise (fun a b => a.priority ≤ b.priority) := by
  induction free, q using gpuPass.induct with
  | case1 free q h =>
    rw [gpuPass_none free h]
    simp
  | case2 free q j rest hpop hfit ih =>
    rw [gpuPass_grant free hpop hfit]
    refine List.Pairwise.cons ?_ ih
    intro b hb
    have hb' : b ∈ rest := gpuPass_mem (Or.inl hb)
    exact popMin_min hpop b
      ((popMin_perm hpop).mem_iff.mp (List.mem_cons_of_mem j hb'))
  | case3 free q j rest hpop hfit =>
    rw [gpuPass_block free hpop hfit]
    simp

/-- C4 — strict priority order with head-of-line blocking, at both stages:
within one scheduling pass jobs are granted in priority-number order, no
granted job has a larger priority number than any job left waiting at the
same stage, and if the minimal-priority (head) job does not fit the free
capacity the pass grants nothing at that stage and leaves its queue
unchanged. -/
theorem strict_priority_no_jump (free : Int) (q : List OllamaJob) :
    ((cpuPass free q).2.2.Pairwise (fun a b => a.priority ≤ b.priority) ∧
      ∀ g ∈ (cpuPass free q).2.2, ∀ r ∈ (cpuPass free q).2.1,
        g.priority ≤ r.priority) ∧
    ((gpuPass free q).2.2.Pairwise (fun a b => a.priority ≤ b.priority) ∧
      ∀ g ∈ (gpuPass free q).2.2, ∀ r ∈ (gpuPass free q).2.1,
        g.priority ≤ r.priority) ∧
    (∀ j rest, popMin q = some (j, rest) → ¬j.cpu_threads ≤ free →
      cpuPass free q = (free, q, [])) ∧
    (∀ j rest, popMin q = some (j, rest) → ¬j.gpu_mem_mb ≤ free →
      gpuPass free q = (free, q, [])) :=
  ⟨⟨cpuPass_granted_sorted free q, cpuPass_order free q⟩,
   ⟨gpuPass_granted_sorted free q, gpuPass_order free q⟩,
   fun _ _ h hfit => cpuPass_block free h hfit,
   fun _ _ h hfit => gpuPass_block free h hfit⟩

theorem scheduleFuel_suffices :
    ∀ (n : Nat) (s : SchedState),
      s.cpuQueue.length + s.gpuQueue.length ≤ n →
      scheduleFuel (n + 1) s = some (schedule s) := by
  intro n
  induction n with
  | zero =>
    intro s h
    have h1 : s.cpuQueue.length = 0 := by omega
    have h2 : s.gpuQueue.length = 0 := by omega
    have hc := List.length_eq_zero.mp h1
    have hg := List.length_eq_zero.mp h2
    have hcp : (cpuPass s.cpu_free s.cpuQueue).2.2 = [] := by
      rw [hc, cpuPass_none _ (popMin_eq_none.mpr rfl)]
    have hgp : (gpuPass s.gpu_mem_free s.gpuQueue).2.2 = [] := by
      rw [hg, gpuPass_none _ (popMin_eq_none.mpr rfl)]
    rw [scheduleFuel, if_pos ⟨hcp, hgp⟩, schedule, dif_pos ⟨hcp, hgp⟩]
  | succ n ih =>
    intro s h
    by_cases hcond : (cpuPass s.cpu_free s.cpuQueue).2.2 = [] ∧
        (gpuPass s.gpu_mem_free s.gpuQueue).2.2 = []
    · rw [scheduleFuel, if_pos hcond, schedule, dif_pos hcond]
    · rw [scheduleFuel, if_neg hcond, schedule, dif_neg hcond]
      exact ih (applyGrants s) (by have := applyGrants_measure hcond; omega)

/-- C10 — the `_schedule` loop terminates on every finite state: fuel equal
to the combined queue length plus one suffices for the outer
`while made_progress` loop, because each progressing iteration strictly
shrinks the combined queues (`applyGrants_measure`). -/
theorem schedule_terminates (s : SchedState) :
    scheduleFuel (s.cpuQueue.length + s.gpuQueue.length + 1) s =
      some (schedule s) :=
  scheduleFuel_suffices _ s (le_refl _)

/-- Only `_run_gpu` touches the completion log, appending exactly the job
whose GPU phase finished. -/
theorem step_completed {s : SchedState} {e : SchedEvent} {s' : SchedState}
    (hstep : step s e = some s') :
    s'.completed = s.completed ++
      (match e with | .finishGpu j => [j] | _ => []) := by
  cases e with
  | submit j =>
    simp only [step] at hstep
    split at hstep
    · simp only [Option.some.injEq] at hstep
      subst hstep
      simpa using (schedule_fields _).1
    · cases hstep
  | finishPre j =>
    simp only [step] at hstep
    split at hstep
    · simp only [Option.some.injEq] at hstep
      subst hstep
      simpa using (schedule_fields _).1
    · cases hstep
  | finishGpu j =>
    simp only [step] at hstep
    split at hstep
    · split at hstep <;>
      · simp only [Option.some.injEq] at hstep
        subst hstep
        simp [(schedule_fields _).1, setFuture]
    · cases hstep
  | cancel j =>
    simp only [step] at hstep
    split at hstep
    · simp only [Option.some.injEq] at hstep
      subst hstep
      simp [setFuture]
    · cases hstep

/-- The jobs whose GPU phase finishes in a trace, in finishing order. -/
def gpuFinishes (tr : List SchedEvent) : List OllamaJob :=
  tr.filterMap (fun e => match e with | .finishGpu j => some j | _ => none)

/-- Along any valid trace the completion log grows by exactly the jobs whose
GPU phases finished, in that order. -/
theorem runTrace_completed :
    ∀ (tr : List SchedEvent) (s s' : SchedState),
      runTrace s tr = some s' →
      s'.completed = s.completed ++ gpuFinishes tr := by
  intro tr
  induction tr with
  | nil =>
    intro s s' h
    simp only [runTrace, Option.some.injEq] at h
    subst h
    simp [gpuFinishes]
  | cons e tr ih =>
    intro s s' h
    simp only [runTrace] at h
    cases hstep : step s e with
    | none => rw [hstep] at h; cases h
    | some s₁ =>
      rw [hstep] at h
      have h1 := step_completed hstep
      have h2 := ih s₁ s' h
      rw [h2, h1, List.append_assoc]
      cases e <;> simp [gpuFinishes]

/-- Every settled-successful future carries the owning job's own prompt. -/
def futOk (s : SchedState) : Prop :=
  ∀ p ∈ s.futures, ∀ v, p.2 = FutureState.done v → v = p.1.prompt

theorem step_futOk {s : SchedState} {e : SchedEvent} {s' : SchedState}
    (h : futOk s) (hstep : step s e = some s') : futOk s' := by
  cases e with
  | submit j =>
    simp only [step] at hstep
    split at hstep
    · simp only [Option.some.injEq] at hstep
      subst hstep
      rw [futOk, (schedule_fields _).2.1]
      intro p hp v hv
      rcases List.mem_append.mp hp with hp | hp
      · exact h p hp v hv
      · simp at hp
        rw [hp] at hv
        cases hv
    · cases hstep
  | finishPre j =>
    simp only [step] at hstep
    split at hstep
    · simp only [Option.some.injEq] at hstep
      subst hstep
      rw [futOk, (schedule_fields _).2.1]
      exact fun p hp v hv => h p hp v hv
    · cases hstep
  | finishGpu j =>
    simp only [step] at hstep
    split at hstep
    · split at hstep
      · simp only [Option.some.injEq] at hstep
        subst hstep
        rw [futOk, (schedule_fields _).2.1]
        intro p hp v hv
        simp only [setFuture, List.mem_map] at hp
        obtain ⟨p₀, hp₀, hpeq⟩ := hp
        by_cases hj : p₀.1.jid = j.jid
        · rw [if_pos hj] at hpeq
          rw [← hpeq] at hv ⊢
          simp at hv ⊢
          exact hv.symm
        · rw [if_neg hj] at hpeq
          subst hpeq
          exact h p₀ hp₀ v hv
      · simp only [Option.some.injEq] at hstep
        subst hstep
        exact fun p hp v hv => h p hp v hv
    · cases hstep
  | cancel j =>
    simp only [step] at hstep
    split at hstep
    · simp only [Option.some.injEq] at hstep
      subst hstep
      intro p hp v hv
      simp only [setFuture, List.mem_map] at hp
      obtain ⟨p₀, hp₀, hpeq⟩ := hp
      by_cases hj : p₀.1.jid = j.jid
      · rw [if_pos hj] at hpeq
        rw [← hpeq] at hv
        cases hv
      · rw [if_neg hj] at hpeq
        subst hpeq
        exact h p₀ hp₀ v hv
    · cases hstep

/-- C9 — results and the completion log: along every valid trace from a
fresh scheduler, a future settled with success carries exactly its job's
`prompt` (the value `submit` returns), and the completion log lists exactly
the jobs whose GPU phases finished, in finishing order. -/
theorem completion_payload_and_order (ct gm : Int) (tr : List SchedEvent)
    (s : SchedState) (hrun : runTrace (initScheduler ct gm) tr = some s) :
    (∀ p ∈ s.futures, ∀ v, p.2 = FutureState.done v → v = p.1.prompt) ∧
    s.completed = gpuFinishes tr := by
  constructor
  · exact runTrace_pres futOk (fun _ => True)
      (fun _ _ _ _ hp hstep => step_futOk hp hstep) tr _ s
      (fun _ _ => trivial) (by intro p hp _ _; simp [initScheduler] at hp) hrun
  · have := runTrace_completed tr _ s hrun
    simpa [initScheduler] using this

theorem cpuPass_nil (free : Int) : cpuPass free [] = (free, [], []) :=
  cpuPass_none free rfl

theorem gpuPass_nil (free : Int) : gpuPass free [] = (free, [], []) :=
  gpuPass_none free rfl

theorem cpuPass_single {free : Int} {z : OllamaJob} (hfit : z.cpu_threads ≤ free) :
    cpuPass free [z] = (free - z.cpu_threads, [], [z]) := by
  rw [cpuPass_grant free (show popMin [z] = some (z, []) from rfl) hfit, cpuPass_nil]

theorem gpuPass_single {free : Int} {z : OllamaJob} (hfit : z.gpu_mem_mb ≤ free) :
    gpuPass free [z] = (free - z.gpu_mem_mb, [], [z]) := by
  rw [gpuPass_grant free (show popMin [z] = some (z, []) from rfl) hfit, gpuPass_nil]

theorem schedule_noqueue {s : SchedState} (hc : s.cpuQueue = []) (hg : s.gpuQueue = []) :
    schedule s = s := by
  rw [schedule, dif_pos ⟨by rw [hc, cpuPass_nil], by rw [hg, gpuPass_nil]⟩]

/-- State after submitting a zero-resource job to a fresh scheduler: the job
is granted its CPU phase immediately, counters untouched. -/
def zeroState1 (ct gm : Int) (z : OllamaJob) : SchedState :=
  { total_cpu_threads := ct, total_gpu_mem := gm, cpu_free := ct,
    gpu_mem_free := gm, cpuQueue := [], cpuRunning := [z], gpuQueue := [],
    gpuRunning := [], max_gpu_concurrency := 0, completed := [],
    futures := [(z, .pending)], invalidState := false }

/-- State after the zero-resource job finishes preprocessing: granted its
GPU phase immediately, counters untouched. -/
def zeroState2 (ct gm : Int) (z : OllamaJob) : SchedState :=
  { zeroState1 ct gm z with
    cpuRunning := [], gpuRunning := [z], max_gpu_concurrency := 1 }

/-- Final state of the zero-resource job: completed with its payload,
counters untouched. -/
def zeroState3 (ct gm : Int) (z : OllamaJob) : SchedState :=
  { zeroState1 ct gm z with
    cpuRunning := [], max_gpu_concurrency := 1, completed := [z],
    futures := [(z, .done z.prompt)] }

/-- C8 — zero-resource jobs: a job with `cpu_threads = 0` and
`gpu_mem_mb = 0` submitted to a fresh scheduler is admitted, granted each
phase immediately (the zero-cost acquire succeeds even when the free
counter is `0`, e.g. totals `0`), runs to completion settling its future
with its own prompt, and leaves both free counters unchanged at every
intermediate state. -/
theorem zero_resource_job (ct gm : Int) (hct : 0 ≤ ct) (hgm : 0 ≤ gm)
    (z : OllamaJob) (hc : z.cpu_threads = 0) (hg : z.gpu_mem_mb = 0) :
    (step (initScheduler ct gm) (.submit z) = some (zeroState1 ct gm z) ∧
      (zeroState1 ct gm z).cpuRunning = [z] ∧
      (zeroState1 ct gm z).cpu_free = ct ∧
      (zeroState1 ct gm z).gpu_mem_free = gm) ∧
    (step (zeroState1 ct gm z) (.finishPre z) = some (zeroState2 ct gm z) ∧
      (zeroState2 ct gm z).gpuRunning = [z] ∧
      (zeroState2 ct gm z).cpu_free = ct ∧
      (zeroState2 ct gm z).gpu_mem_free = gm) ∧
    (step (zeroState2 ct gm z) (.finishGpu z) = some (zeroState3 ct gm z) ∧
      (zeroState3 ct gm z).completed = [z] ∧
      futLookup (zeroState3 ct gm z) z = some (.done z.prompt) ∧
      (zeroState3 ct gm z).cpu_free = ct ∧
      (zeroState3 ct gm z).gpu_mem_free = gm) := by
  have hfitc : z.cpu_threads ≤ ct := by rw [hc]; exact hct
  have hfitg : z.gpu_mem_mb ≤ gm := by rw [hg]; exact hgm
  refine ⟨⟨?_, rfl, rfl, rfl⟩, ⟨?_, rfl, rfl, rfl⟩, ⟨?_, rfl, ?_, rfl, rfl⟩⟩
  · simp only [step, initScheduler, List.all_nil, if_true, List.nil_append]
    rw [schedule]
    rw [dif_neg (by simp [cpuPass_single hfitc])]
    rw [applyGrants]
    simp only [cpuPass_single hfitc, gpuPass_nil]
    rw [schedule_noqueue rfl rfl]
    simp [hc, zeroState1]
  · simp only [step, zeroState1, List.nil_append]
    rw [if_pos (show z ∈ [z] by simp)]
    rw [schedule]
    rw [dif_neg (by simp [cpuPass_nil, gpuPass_single hfitg])]
    rw [applyGrants]
    simp only [cpuPass_nil, gpuPass_single hfitg, List.erase_cons_head]
    rw [schedule_noqueue rfl rfl]
    simp [hc, hg, zeroState2, zeroState1]
  · simp only [step, zeroState2, zeroState1]
    rw [if_pos (show z ∈ [z] by simp)]
    rw [if_pos (by simp [futLookup])]
    rw [setFuture]
    simp only [List.erase_cons_head]
    rw [schedule_noqueue rfl rfl]
    simp [hg, zeroState3, zeroState1]
  · simp [futLookup, zeroState3, zeroState1]

/-- Scenario job requesting more CPU threads (3) than the pool total (2). -/
def bigJob : OllamaJob :=
  { jid := 0, priority := 0, prompt := "big", model := "llama",
    cpu_threads := 3, gpu_mem_mb := 1 }

/-- State after submitting `bigJob` to `OllamaScheduler(2, 2)`: the job sits
in the CPU queue, unrejected. -/
def bigState : SchedState :=
  { total_cpu_threads := 2, total_gpu_mem := 2, cpu_free := 2,
    gpu_mem_free := 2, cpuQueue := [bigJob], cpuRunning := [], gpuQueue := [],
    gpuRunning := [], max_gpu_concurrency := 0, completed := [],
    futures := [(bigJob, .pending)], invalidState := false }

/-- C1 — `submit` has no admission gate: submitting a job whose
`cpu_threads` (3) exceeds the pool total (2) raises no error; the job is
enqueued into the CPU priority queue (scheduler state **is** mutated) and
its future stays pending, instead of the synchronous rejection the
specification (and the repository's own test
`test_scheduler_rejects_job_exceeding_total_resources`) requires. -/
theorem submit_oversize_not_rejected :
    step (initScheduler 2 2) (.submit bigJob) = some bigState ∧
    bigState.cpuQueue = [bigJob] ∧ bigState.cpu_free = 2 ∧
    futLookup bigState bigJob = some .pending := by
  have hbl : cpuPass 2 [bigJob] = (2, [bigJob], []) :=
    cpuPass_block 2 (show popMin [bigJob] = some (bigJob, []) from rfl)
      (by decide)
  refine ⟨?_, rfl, rfl, by simp [futLookup, bigState]⟩
  simp only [step, initScheduler, List.all_nil, if_true, List.nil_append]
  rw [schedule, dif_pos ⟨by rw [hbl], by rw [gpuPass_nil]⟩]
  simp [bigState, initScheduler]

/-- Scenario job for the cancellation scenarios on `OllamaScheduler(1, 1)`. -/
def longJob : OllamaJob :=
  { jid := 0, priority := 0, prompt := "long", model := "llama",
    cpu_threads := 1, gpu_mem_mb := 1 }

/-- After `submit longJob`: granted its CPU phase, `cpu_free = 0`. -/
def cancelState1 : SchedState :=
  { total_cpu_threads := 1, total_gpu_mem := 1, cpu_free := 0,
    gpu_mem_free := 1, cpuQueue := [], cpuRunning := [longJob], gpuQueue := [],
    gpuRunning := [], max_gpu_concurrency := 0, completed := [],
    futures := [(longJob, .pending)], invalidState := false }

/-- After the caller cancels: only the future changes; the job keeps
running and keeps its CPU grant. -/
def cancelState2 : SchedState :=
  { cancelState1 with futures := [(longJob, .cancelled)] }

/-- After the cancelled job's CPU phase finishes anyway: it is granted the
GPU phase, `gpu_mem_free = 0`. -/
def cancelState3 : SchedState :=
  { total_cpu_threads := 1, total_gpu_mem := 1, cpu_free := 1,
    gpu_mem_free := 0, cpuQueue := [], cpuRunning := [], gpuQueue := [],
    gpuRunning := [longJob], max_gpu_concurrency := 1, completed := [],
    futures := [(longJob, .cancelled)], invalidState := false }

/-- After the cancelled job's GPU phase finishes: it lands in the
completion log and `set_result` hits the already-cancelled future
(`InvalidStateError`). -/
def cancelState4 : SchedState :=
  { total_cpu_threads := 1, total_gpu_mem := 1, cpu_free := 1,
    gpu_mem_free := 1, cpuQueue := [], cpuRunning := [], gpuQueue := [],
    gpuRunning := [], max_gpu_concurrency := 1, completed := [longJob],
    futures := [(longJob, .cancelled)], invalidState := true }

theorem step_longJob_submit :
    step (initScheduler 1 1) (.submit longJob) = some cancelState1 := by
  have hfit : longJob.cpu_threads ≤ 1 := by decide
  simp only [step, initScheduler, List.all_nil, if_true, List.nil_append]
  rw [schedule]
  rw [dif_neg (by simp [cpuPass_single hfit])]
  rw [applyGrants]
  simp only [cpuPass_single hfit, gpuPass_nil]
  rw [schedule_noqueue rfl rfl]
  simp [cancelState1, longJob]

theorem step_longJob_cancel :
    step cancelState1 (.cancel longJob) = some cancelState2 := by
  simp only [step]
  rw [if_pos (by simp [futLookup, cancelState1])]
  simp [setFuture, cancelState1, cancelState2]

theorem step_longJob_finishPre :
    step cancelState2 (.finishPre longJob) = some cancelState3 := by
  have hfit : longJob.gpu_mem_mb ≤ 1 := by decide
  simp only [step, cancelState2, cancelState1]
  rw [if_pos (show longJob ∈ [longJob] by simp)]
  rw [schedule]
  rw [dif_neg (by simp [cpuPass_nil, gpuPass_single hfit])]
  rw [applyGrants]
  simp only [cpuPass_nil, gpuPass_single hfit, List.erase_cons_head,
    List.nil_append]
  rw [schedule_noqueue rfl rfl]
  simp [cancelState3, longJob]

theorem step_longJob_finishGpu :
    step cancelState3 (.finishGpu longJob) = some cancelState4 := by
  simp only [step, cancelState3]
  rw [if_pos (show longJob ∈ [longJob] by simp)]
  rw [if_neg (by simp [futLookup])]
  simp [cancelState4, longJob]

/-- C6 — cancellation does not release held resources: on
`OllamaScheduler(1, 1)`, after submitting `longJob` and the caller
cancelling while the CPU phase runs, the cancellation is already observable
(the future is cancelled) while the job still holds its CPU grant:
`cpu_free = 0`, not the configured total `1`. -/
theorem cancel_observable_while_resources_held :
    runTrace (initScheduler 1 1) [.submit longJob, .cancel longJob] =
      some cancelState2 ∧
    futLookup cancelState2 longJob = some .cancelled ∧
    cancelState2.cpu_free = 0 ∧ cancelState2.cpuRunning = [longJob] ∧
    cancelState2.total_cpu_threads = 1 := by
  refine ⟨?_, by simp [futLookup, cancelState2, cancelState1], rfl, rfl, rfl⟩
  simp only [runTrace, step_longJob_submit, step_longJob_cancel]

/-- C7 — a cancelled job is not removed from the pipeline and still reaches
the `Completed` terminal state: after cancelling, the job stays in the
running set, later executes its GPU phase, and is appended to the
completion log. -/
theorem cancelled_job_reaches_completed :
    runTrace (initScheduler 1 1)
        [.submit longJob, .cancel longJob, .finishPre longJob,
         .finishGpu longJob] = some cancelState4 ∧
    cancelState2.cpuRunning = [longJob] ∧
    cancelState4.completed = [longJob] ∧
    futLookup cancelState4 longJob = some .cancelled := by
  refine ⟨?_, rfl, rfl, by simp [futLookup, cancelState4]⟩
  simp only [runTrace, step_longJob_submit, step_longJob_cancel,
    step_longJob_finishPre, step_longJob_finishGpu]

/-- C5 — the completion slot is re-settled after a caller cancellation:
the cancellation settles the future, and the job's `_run_gpu` phase later
calls `set_result` on that already-settled future — a second settlement
attempt (`asyncio.InvalidStateError`), recorded by `invalidState = true`. -/
theorem cancelled_job_future_resettled :
    runTrace (initScheduler 1 1)
        [.submit longJob, .cancel longJob, .finishPre longJob,
         .finishGpu longJob] = some cancelState4 ∧
    cancelState4.invalidState = true := by
  refine ⟨?_, rfl⟩
  simp only [runTrace, step_longJob_submit, step_longJob_cancel,
    step_longJob_finishPre, step_longJob_finishGpu]

/-- Witness for C2 at a concrete input: the four-event trace on
`OllamaScheduler(1, 1)` ends with every queue and running set empty, and
the conservation theorem yields both counters back at their totals. -/
theorem resource_conservation_witness :
    cancelState4.cpu_free = 1 ∧ cancelState4.gpu_mem_free = 1 :=
  resource_conservation 1 1
    [.submit longJob, .cancel longJob, .finishPre longJob, .finishGpu longJob]
    cancelState4
    (by simp only [runTrace, step_longJob_submit, step_longJob_cancel,
      step_longJob_finishPre, step_longJob_finishGpu])
    rfl rfl rfl rfl

/-- Witness for C3 at a concrete input. -/
theorem no_over_admission_witness :
    cpuSum cancelState4.cpuRunning ≤ 1 ∧ gpuSum cancelState4.gpuRunning ≤ 1 ∧
      0 ≤ cancelState4.cpu_free ∧ 0 ≤ cancelState4.gpu_mem_free :=
  no_over_admission 1 1 (by decide) (by decide)
    [.submit longJob, .cancel longJob, .finishPre longJob, .finishGpu longJob]
    (by decide) cancelState4
    (by simp only [runTrace, step_longJob_submit, step_longJob_cancel,
      step_longJob_finishPre, step_longJob_finishGpu])

/-- Priority-1 scenario job. -/
def jobP1 : OllamaJob :=
  { jid := 1, priority := 1, prompt := "p1", model := "llama",
    cpu_threads := 1, gpu_mem_mb := 1 }

/-- Priority-2 scenario job. -/
def jobP2 : OllamaJob :=
  { jid := 2, priority := 2, prompt := "p2", model := "llama",
    cpu_threads := 1, gpu_mem_mb := 1 }

/-- Witness for C4 at concrete inputs: with one free CPU thread and queue
`[jobP2, jobP1]`, the granted `jobP1` precedes the still-waiting `jobP2`,
and a non-fitting head (`jobP1` against zero free threads) blocks its pass
entirely. -/
theorem strict_priority_no_jump_witness :
    jobP1.priority ≤ jobP2.priority ∧ cpuPass 0 [jobP1] = (0, [jobP1], []) := by
  have h : cpuPass 1 [jobP2, jobP1] = (0, [jobP2], [jobP1]) := by
    rw [cpuPass_grant 1
      (show popMin [jobP2, jobP1] = some (jobP1, [jobP2]) from rfl) (by decide)]
    rw [cpuPass_block (1 - jobP1.cpu_threads)
      (show popMin [jobP2] = some (jobP2, []) from rfl) (by decide)]
    simp [jobP1]
  constructor
  · exact (strict_priority_no_jump 1 [jobP2, jobP1]).1.2 jobP1
      (by rw [h]; simp) jobP2 (by rw [h]; simp)
  · exact (strict_priority_no_jump 0 [jobP1]).2.2.1 jobP1 [] rfl (by decide)

/-- Zero-resource scenario job. -/
def zeroJob : OllamaJob :=
  { jid := 0, priority := 0, prompt := "zero", model := "llama",
    cpu_threads := 0, gpu_mem_mb := 0 }

/-- Witness for C8 at a concrete input: pool totals `0` (so both free
counters are `0`), yet `zeroJob` is admitted, granted, and completes with
its payload `"zero"`. -/
theorem zero_resource_job_witness :
    (0 : Int) ≤ 0 ∧
    step (initScheduler 0 0) (.submit zeroJob) = some (zeroState1 0 0 zeroJob) ∧
    futLookup (zeroState3 0 0 zeroJob) zeroJob = some (.done "zero") := by
  have h := zero_resource_job 0 0 (le_refl 0) (le_refl 0) zeroJob rfl rfl
  exact ⟨le_refl 0, h.1.1, h.2.2.2.2.1⟩

/-- Witness for C9 at a concrete input: the completion log of the four-event
trace is exactly the jobs of its `finishGpu` events, in order. -/
theorem completion_payload_and_order_witness :
    cancelState4.completed = gpuFinishes
      [.submit longJob, .cancel longJob, .finishPre longJob,
       .finishGpu longJob] :=
  (completion_payload_and_order 1 1
    [.submit longJob, .cancel longJob, .finishPre longJob, .finishGpu longJob]
    cancelState4
    (by simp only [runTrace, step_longJob_submit, step_longJob_cancel,
      step_longJob_finishPre, step_longJob_finishGpu])).2
